import Mathlib

/-!
Shallow embedding of the ffrenc job-orchestration and progress-aggregation
core (src/main.rs, src/tasks.rs, src/ui.rs), together with theorems that
settle the claims about it.

Modelling conventions:
* `Duration` (Rust `std::time::Duration`) is a count of whole nanoseconds;
  `Duration.asSecs` models `as_secs_f64` as an exact rational.
* `Instant.now()` is modelled by passing an explicit `now : ℚ` timestamp
  (seconds) into the functions that read the clock.
* `f64` arithmetic in the renderer is modelled over `ℚ` (exact reals);
  `f64::EPSILON` is the exact rational `2⁻⁵²`.
* Fallible functions return `Except`/`Option`.
-/

namespace Ffrenc

/-- Rust `std::time::Duration`: a non-negative number of nanoseconds. -/
abbrev Duration := Nat

/-- Rust `Duration::as_secs_f64`: seconds, as an exact rational. -/
def Duration.asSecs (d : Duration) : ℚ := (d : ℚ) / 1000000000

/-- Rust `f64::EPSILON = 2⁻⁵²`. -/
def EPSILON : ℚ := 1 / 2 ^ 52

/-- From `libffmpeg::util::cmd`: one process exit code together with the backend's
own judgment of whether that code means success. Modelled from its use at
`ui.rs`: `exit.exit_code.is_some_and(|ec| ec.success)`. -/
structure ExitCode where
  code : Int
  success : Bool
deriving DecidableEq, Repr

/-- From `libffmpeg::util::cmd`, `CommandExit`: the exit status of the backend
process; `exit_code` is absent when the process was killed by a signal. -/
structure CommandExit where
  exit_code : Option ExitCode
deriving DecidableEq, Repr

/-- From `libffmpeg::ffmpeg`, `FfmpegError`; only its `to_string` rendering is
consumed by the reducer, so it is carried as that text. -/
structure FfmpegError where
  description : String
deriving DecidableEq, Repr

/-- Rust `FfmpegError::to_string()`. -/
def FfmpegError.toText (e : FfmpegError) : String := e.description

/-- From `ui.rs`: `UiMessagePayload`. Paths are carried as strings. -/
inductive UiMessagePayload where
  | created (input output : String) (total : Duration)
  | started
  | finished (exit : CommandExit)
  | failed (error : FfmpegError)
  | progress (total current : Duration)
deriving DecidableEq, Repr

/-- From `ui.rs`: `UiMessage`. -/
structure UiMessage where
  task_id : Nat
  payload : UiMessagePayload
deriving DecidableEq, Repr

/-- From `ui.rs`: `UiTask`, the aggregator's per-job snapshot. Timestamps are
rational seconds. -/
structure UiTask where
  id : Nat
  input : String
  output : String
  active : Bool
  started_at : Option ℚ
  exited_at : Option ℚ
  success : Option Bool
  error_description : Option String
  total : Duration
  current : Duration
deriving DecidableEq, Repr

/-- Rust `UiTask::new`. -/
def UiTask.new (id : Nat) (input output : String) (total : Duration) : UiTask where
  id := id
  input := input
  output := output
  active := false
  started_at := none
  exited_at := none
  success := none
  error_description := none
  total := total
  current := 0

/-- From `ui.rs`: `UiState`; `tasks[task_id]` is the state for that task. -/
structure UiState where
  tasks : List (Option UiTask)
deriving DecidableEq, Repr

/-- Rust `UiState::new`. -/
def UiState.new : UiState := ⟨[]⟩

/-- The padding loop inside `UiState::get`: push `None` until
`tasks.len() >= task_id + 1`. -/
def padTo (l : List (Option UiTask)) (task_id : Nat) : List (Option UiTask) :=
  l ++ List.replicate (task_id + 1 - l.length) none

/-- Rust `UiState::update`, with `Instant::now()` passed in as `now`.
Returns `Except` where the Rust returns `anyhow::Result`. -/
def UiState.update (s : UiState) (now : ℚ) (m : UiMessage) : Except String UiState :=
  let tasks := padTo s.tasks m.task_id
  match tasks.getD m.task_id none with
  | none =>
    match m.payload with
    | .created input output total =>
      .ok ⟨tasks.set m.task_id (some (UiTask.new m.task_id input output total))⟩
    | _ =>
      .error ("Received event for non-existent task id=" ++ toString m.task_id)
  | some t =>
    match m.payload with
    | .created _ _ _ => .ok ⟨tasks⟩
    | .started =>
      .ok ⟨tasks.set m.task_id (some { t with active := true, started_at := some now })⟩
    | .finished exit =>
      .ok ⟨tasks.set m.task_id (some { t with
        active := false
        exited_at := some now
        success := some (match exit.exit_code with
          | some ec => ec.success
          | none => false) })⟩
    | .failed error =>
      .ok ⟨tasks.set m.task_id (some { t with
        active := false
        exited_at := some now
        success := some false
        error_description := some error.toText })⟩
    | .progress total current =>
      .ok ⟨tasks.set m.task_id (some { t with current := current, total := total })⟩

/-- The event-processing path of the `ui_main` loop: each delivered message is
applied with `state.update(delivery)?`, so the first error aborts the loop. -/
def UiState.run (s : UiState) : List (ℚ × UiMessage) → Except String UiState
  | [] => .ok s
  | (now, m) :: rest =>
    match s.update now m with
    | .ok s' => s'.run rest
    | .error e => .error e

/-! ### The renderer (`UiState::draw`) -/

/-- The `percent` field of `TaskInfo` in `UiState::draw` (before the `{:.1}%`
formatting):
`(t.current.as_secs_f64() / t.total.as_secs_f64().max(f64::EPSILON) * 100.0).min(100.0)`. -/
def percentOf (current total : Duration) : ℚ :=
  min (current.asSecs / max total.asSecs EPSILON * 100) 100

/-- The `eta` closure of `UiState::draw` (before the `"(m)m (s)s"` formatting):
the rational number of seconds wrapped by `Duration::from_secs_f64(remaining.max(0.0))`,
or `none` where the Rust returns `None`. -/
def etaOf (now : ℚ) (t : UiTask) : Option ℚ :=
  match t.started_at with
  | none => none
  | some i =>
    let elapsed := now - i
    let progress := t.current.asSecs
    if progress < t.total.asSecs * (1 / 100) then none
    else
      let remaining := elapsed * (t.total.asSecs / progress - 1)
      if 3600 < remaining then none
      else some (max remaining 0)

/-- The flattening `self.tasks.iter().flatten()` at the top of `UiState::draw`:
the snapshots that exist, in id order. -/
def UiState.taskList (s : UiState) : List UiTask := s.tasks.reduceOption

/-- Field `Row.total_tasks` as computed in `UiState::draw`. -/
def UiState.total_tasks (s : UiState) : Nat := s.taskList.length

/-- Field `Row.active_tasks`: `tasks.iter().filter(|t| t.active).count()`. -/
def UiState.active_tasks (s : UiState) : Nat :=
  (s.taskList.filter (fun t => t.active)).length

/-- Field `Row.completed_tasks`: `tasks.iter().filter(|t| t.exited_at.is_some()).count()`. -/
def UiState.completed_tasks (s : UiState) : Nat :=
  (s.taskList.filter (fun t => t.exited_at.isSome)).length

/-- Field `Row.successful_tasks`: `tasks.iter().filter(|t| t.success == Some(true)).count()`. -/
def UiState.successful_tasks (s : UiState) : Nat :=
  (s.taskList.filter (fun t => t.success == some true)).length

/-- Field `Row.failed_tasks`: `tasks.iter().filter(|t| t.success == Some(false)).count()`. -/
def UiState.failed_tasks (s : UiState) : Nat :=
  (s.taskList.filter (fun t => t.success == some false)).length

/-! ### `tasks.rs`: the ffmpeg command builder closure in `Task::run` -/

/-- The mutable command-argument builder handed to the closure
(`tokio::process::Command` argument list, as consumed via `cmd.arg`/`cmd.args`). -/
structure Cmd where
  args : List String
deriving DecidableEq, Repr

/-- Rust `cmd.arg(s)`. -/
def Cmd.arg (c : Cmd) (s : String) : Cmd := ⟨c.args ++ [s]⟩

/-- Rust `cmd.args(ss)`. -/
def Cmd.argsMany (c : Cmd) (ss : List String) : Cmd := ⟨c.args ++ ss⟩

/-- The command-builder closure passed to `ffmpeg_with_progress` in
`Task::run` (`tasks.rs`), transcribed push by push. -/
def commandBuilder (no_audio no_video : Bool) (extra_args : List String)
    (input output : String) (cmd : Cmd) : Cmd :=
  let cmd := cmd.arg "-y"
  let cmd := (cmd.arg "-i").arg input
  let cmd :=
    if no_audio then
      cmd.arg "-an"
    else
      (cmd.arg "-c:a").arg "copy"
  let cmd :=
    if no_video then
      cmd.arg "-vn"
    else
      ((((((cmd.arg "-c:v").arg "libx264").arg "-crf").arg "18").arg "-preset").arg "ultrafast")
  let cmd := (cmd.arg "-movflags").arg "+frag_keyframe+empty_moov"
  let cmd := (cmd.arg "-f").arg "mp4"
  let cmd := if extra_args ≠ [] then cmd.argsMany extra_args else cmd
  cmd.arg output

/-! ### `tasks.rs`: the progress-monitor relay (`Task::spawn_monitor`) -/

/-- One outcome of
`rx.recv().with_cancellation_token(&token).await` in the monitor loop:
`Some(Some(d))` a sample, `Some(None)` the channel closed,
`None` the token was cancelled. -/
inductive RelayIn where
  | sample (d : Duration)
  | closed
  | cancelled
deriving DecidableEq, Repr

/-- Whether a receive outcome is a delivered sample. -/
def RelayIn.isSample : RelayIn → Bool
  | .sample _ => true
  | _ => false

/-- The delivered sample, if any. -/
def RelayIn.sampleVal : RelayIn → Option Duration
  | .sample d => some d
  | _ => none

/-- Result of `tx.send(..).await` on the outbound event channel: `true` when
the aggregator received it, `false` when the channel was closed. The monitor
binds it to `_`. -/
abbrev SendResult := Nat → Bool

/-- The monitor loop of `Task::spawn_monitor`, driven by the finite list of
receive outcomes it observes. Returns the list of `UiMessage`s whose send was
attempted. `sendOk` gives each attempted send's result, which the loop
discards (`let _ = tx.send(..)`), and `k` counts sends made so far. -/
def monitorLoop (id : Nat) (total : Duration) (sendOk : SendResult) (k : Nat) :
    List RelayIn → List UiMessage
  | [] => []
  | .closed :: _ => []
  | .cancelled :: _ => []
  | .sample d :: rest =>
    let msg : UiMessage := ⟨id, .progress total d⟩
    let _ := sendOk k
    msg :: monitorLoop id total sendOk (k + 1) rest

/-- Rust `Task::spawn_monitor`: the messages sent by the
monitor task for job `id` with total duration `total`. -/
def spawnMonitorSends (id : Nat) (total : Duration) (sendOk : SendResult)
    (ins : List RelayIn) : List UiMessage :=
  monitorLoop id total sendOk 0 ins

/-! ### `tasks.rs` + `main.rs`: the gate discipline of `Task::run`

`Task::run` performs, in program order: send `Created`, `sem.acquire()`,
send `Started`, run the backend, send the terminal event (`Finished` or
`Failed`), and release the permit when `_guard` drops at the end of the
scope. `main.rs` builds the shared semaphore with capacity 1 and spawns one
such task per job. The interleaving of two runners is modelled as a
scheduler choosing which runner steps next; a runner blocked on `acquire`
(no permit) or already finished does not advance. -/

/-- A `UiMessage` send observed on the event channel, projected onto the
lifecycle events relevant to the gate discipline. `terminal` covers
`Finished` and `Failed`. Jobs are indexed by `Bool`: `false` is the first
job enqueued, `true` the second. -/
inductive GateEvent where
  | created (j : Bool)
  | started (j : Bool)
  | terminal (j : Bool)
deriving DecidableEq, Repr

/-- Joint state of two `Task::run` invocations sharing one semaphore.
`p0`/`p1` are program counters into the runner body (0: about to send
Created, 1: about to acquire, 2: about to send Started, 3: about to send the
terminal event, 4: about to release the permit, 5: done); `permits` is the
semaphore's available-permit count; `trace` is the sequence of sends
observed so far on the event channel. -/
structure GateState where
  p0 : Nat
  p1 : Nat
  permits : Nat
  trace : List GateEvent
deriving DecidableEq, Repr

/-- Program counter of job `j`. -/
def GateState.pos (s : GateState) : Bool → Nat
  | false => s.p0
  | true => s.p1

/-- Advance job `j`'s program counter by one. -/
def GateState.bump (s : GateState) : Bool → GateState
  | false => { s with p0 := s.p0 + 1 }
  | true => { s with p1 := s.p1 + 1 }

/-- One scheduler step granted to job `j`: the next instruction of
`Task::run` for that job, or a no-op if the job is blocked on
`sem.acquire()` or already done. -/
def stepJob (s : GateState) (j : Bool) : GateState :=
  match s.pos j with
  | 0 => { s.bump j with trace := s.trace ++ [.created j] }
  | 1 => if 0 < s.permits then { s.bump j with permits := s.permits - 1 } else s
  | 2 => { s.bump j with trace := s.trace ++ [.started j] }
  | 3 => { s.bump j with trace := s.trace ++ [.terminal j] }
  | 4 => { s.bump j with permits := s.permits + 1 }
  | _ => s

/-- Initial state: both runners at the top of `Task::run`, the semaphore
holding `capacity` permits, nothing sent yet. -/
def gateInit (capacity : Nat) : GateState := ⟨0, 0, capacity, []⟩

/-- Run two `Task::run` bodies under the scheduler choice sequence `sched`
(element `j` means job `j` steps next), starting from a semaphore of the
given capacity. -/
def execSched (capacity : Nat) (sched : List Bool) : GateState :=
  sched.foldl stepJob (gateInit capacity)

/-! ### `main.rs`: input collection and canonicalization -/

/-- The value of `--input` (`-i`): either a single path, or `-` with the
lines read from standard input. -/
inductive InputMode where
  | single (path : String)
  | stdinLines (lines : List String)
deriving DecidableEq, Repr

/-- The filesystem's answer to `PathBuf::canonicalize`: `some` the canonical
path, `none` when canonicalization fails. -/
abbrev Canonicalizer := String → Option String

/-- The errors with which `main` refuses to start while collecting inputs. -/
inductive StartError where
  | canonicalizeFailed (path : String)
  | noInputs
deriving DecidableEq, Repr

/-- The input-collection block of `main` (`main.rs`): in `-` mode each
non-blank stdin line is canonicalized independently and failures are skipped
with a warning; otherwise the single `--input` path is canonicalized with
`?`, so failure is returned as an error. The subsequent
`if inputs.is_empty() { bail!("No inputs specified") }` check is included. -/
def resolveInputs (canonicalize : Canonicalizer) : InputMode → Except StartError (List String)
  | .stdinLines lines =>
    let inputs := (lines.filter (fun l => !l.trim.isEmpty)).filterMap canonicalize
    if inputs.isEmpty then .error .noInputs else .ok inputs
  | .single path =>
    match canonicalize path with
    | some p =>
      let inputs := [p]
      if inputs.isEmpty then .error .noInputs else .ok inputs
    | none => .error (.canonicalizeFailed path)

/-! ### Auxiliary predicates used by the theorems -/

/-- A payload is terminal when it is `Finished` or `Failed`. -/
def UiMessagePayload.isTerminal : UiMessagePayload → Prop
  | .finished _ => True
  | .failed _ => True
  | _ => False

/-- Some event in `evs` is a `Started` for job `j`. -/
def hasStarted (j : Nat) (evs : List (ℚ × UiMessage)) : Prop :=
  ∃ e ∈ evs, e.2.task_id = j ∧ e.2.payload = .started

/-- The per-job event-ordering discipline relevant to the snapshot
invariants: no `Started` for a job is delivered after a terminal event for
that job. Real senders guarantee this (`Task::run` sends `Started` strictly
before its terminal event and the channel is FIFO per sender). -/
def protocolOrdered : List (ℚ × UiMessage) → Prop
  | [] => True
  | e :: rest =>
    (e.2.payload.isTerminal → ¬ hasStarted e.2.task_id rest) ∧ protocolOrdered rest

/-- The per-snapshot invariant behind `completed = succeeded + failed`:
an exit timestamp is recorded exactly when the success tri-state is set. -/
def exitMatchesSuccess (t : UiTask) : Prop :=
  t.exited_at.isSome = t.success.isSome

/-- The per-snapshot invariant behind `active + completed ≤ total`:
a decided snapshot is not active. -/
def decidedNotActive (t : UiTask) : Prop :=
  t.success.isSome → t.active = false

/-- Number of permits job `j` holds when its program counter is `p`:
1 from just after `sem.acquire()` (pc 2) until its release instruction
(pc 4) has run, else 0. -/
def holding (p : Nat) : Nat := if 2 ≤ p ∧ p ≤ 4 then 1 else 0

/-- Inductive invariant of the two-runner gate semantics at capacity 1. -/
structure GInv (s : GateState) : Prop where
  perm : s.permits + holding s.p0 + holding s.p1 = 1
  started_mem : ∀ j, (GateEvent.started j) ∈ s.trace ↔ 3 ≤ s.pos j
  terminal_mem : ∀ j, (GateEvent.terminal j) ∈ s.trace ↔ 4 ≤ s.pos j
  started_unique : ∀ (j : Bool) (n m : Nat), s.trace[n]? = some (GateEvent.started j) →
    s.trace[m]? = some (GateEvent.started j) → n = m
  started_before_terminal : ∀ (j : Bool) (n m : Nat), s.trace[n]? = some (GateEvent.started j) →
    s.trace[m]? = some (GateEvent.terminal j) → n < m
  mutex : ∀ (i j : Bool) (n m : Nat), i ≠ j → n < m → s.trace[n]? = some (GateEvent.started i) →
    s.trace[m]? = some (GateEvent.started j) →
    ∃ k, n < k ∧ k < m ∧ s.trace[k]? = some (GateEvent.terminal i)

/-- Every existing snapshot has its exit timestamp set exactly when its
success tri-state is set. -/
def exitConsistent (s : UiState) : Prop :=
  ∀ j t, s.tasks.getD j none = some t → exitMatchesSuccess t

/-- Every decided snapshot is inactive, and a decided snapshot's job has no
`Started` event still pending in `evs`. -/
def pendingInv (s : UiState) (evs : List (ℚ × UiMessage)) : Prop :=
  ∀ j t, s.tasks.getD j none = some t →
    decidedNotActive t ∧ (t.success.isSome = true → ¬ hasStarted j evs)

/-- Concrete snapshot used to exercise `etaOf`: total 100 s, current 1 s,
started at time 0. -/
def etaProbeTask : UiTask := { id := 0, input := "i", output := "o", active := true, started_at := some 0, exited_at := none, success := none, error_description := none, total := 100000000000, current := 1000000000 }

/-! ## Helper lemmas -/

theorem padTo_length (l : List (Option UiTask)) (i : Nat) :
    (padTo l i).length = max l.length (i + 1) := by
  simp only [padTo, List.length_append, List.length_replicate]
  omega

theorem padTo_eq_self {l : List (Option UiTask)} {i : Nat} (h : i < l.length) :
    padTo l i = l := by
  have h0 : i + 1 - l.length = 0 := by omega
  simp [padTo, h0]

theorem padTo_getD (l : List (Option UiTask)) (i j : Nat) :
    (padTo l i).getD j none = l.getD j none := by
  by_cases h : j < l.length
  · simp [padTo, List.getD_eq_getElem?_getD, List.getElem?_append_left h]
  · have h1 : l[j]? = none := List.getElem?_eq_none (by omega)
    simp only [padTo, List.getD_eq_getElem?_getD, List.getElem?_append, h1]
    rw [if_neg h, List.getElem?_replicate]
    split <;> rfl

theorem getD_some_lt {l : List (Option UiTask)} {j : Nat} {t : UiTask}
    (h : l.getD j none = some t) : j < l.length := by
  by_contra hlt
  rw [List.getD_eq_getElem?_getD, List.getElem?_eq_none (by omega)] at h
  simp at h

theorem getD_set_some {l : List (Option UiTask)} {j : Nat} (t' : UiTask)
    (h : j < l.length) : (l.set j (some t')).getD j none = some t' := by
  rw [List.getD_eq_getElem?_getD, List.getElem?_set_self h]
  rfl

theorem getD_set_ne {l : List (Option UiTask)} {i j : Nat} (v : Option UiTask)
    (h : i ≠ j) : (l.set i v).getD j none = l.getD j none := by
  rw [List.getD_eq_getElem?_getD, List.getD_eq_getElem?_getD,
    List.getElem?_set_ne h]

theorem getD_padTo_set_self (l : List (Option UiTask)) (i : Nat) (t' : UiTask) :
    ((padTo l i).set i (some t')).getD i none = some t' :=
  getD_set_some _ (by rw [padTo_length]; omega)

theorem getD_padTo_set_ne (l : List (Option UiTask)) {i j : Nat}
    (h : i ≠ j) (v : Option UiTask) :
    ((padTo l i).set i v).getD j none = l.getD j none := by
  rw [getD_set_ne v h, padTo_getD]

/-! ## C10 -/

/-- C10: processing a further `Created` for a job id whose snapshot already
exists returns `Ok` and leaves the whole snapshot table unchanged, whatever
the payload carries. -/
theorem update_created_idempotent (s : UiState) (now : ℚ) (id : Nat)
    (input output : String) (total : Duration) (t : UiTask)
    (h : s.tasks.getD id none = some t) :
    s.update now ⟨id, .created input output total⟩ = .ok s := by
  have hlt : id < s.tasks.length := getD_some_lt h
  have hpad : padTo s.tasks id = s.tasks := padTo_eq_self hlt
  simp only [UiState.update, hpad, h]

/-- Witness for `update_created_idempotent` at a concrete state. -/
theorem update_created_idempotent_witness :
    (UiState.mk [some (UiTask.new 0 "a" "b" 5)]).update 0
        ⟨0, .created "x" "y" 9⟩ =
      .ok (UiState.mk [some (UiTask.new 0 "a" "b" 5)]) :=
  update_created_idempotent _ 0 0 "x" "y" 9 (UiTask.new 0 "a" "b" 5) rfl

/-! ## C1 -/

/-- C1: a non-`Created` event whose job id has no snapshot makes the reducer
return an error (no silent drop, no default entry), and that error aborts
the aggregator loop. -/
theorem update_unknown_id_aborts (s : UiState) (now : ℚ) (m : UiMessage)
    (rest : List (ℚ × UiMessage))
    (hnone : s.tasks.getD m.task_id none = none)
    (hnc : ∀ input output total, m.payload ≠ .created input output total) :
    ∃ e, s.update now m = .error e ∧ s.run ((now, m) :: rest) = .error e := by
  have hpad : (padTo s.tasks m.task_id).getD m.task_id none = none := by
    rw [padTo_getD]; exact hnone
  have herr : s.update now m =
      .error ("Received event for non-existent task id=" ++ toString m.task_id) := by
    simp only [UiState.update, hpad]
  exact ⟨_, herr, by simp only [UiState.run, herr]⟩

/-- Witness for `update_unknown_id_aborts`: an event for job id 7 with no
prior `Created` for id 7. -/
theorem update_unknown_id_aborts_witness :
    ∃ e, UiState.new.update 0 ⟨7, .started⟩ = .error e ∧
      UiState.new.run [(0, ⟨7, .started⟩)] = .error e :=
  update_unknown_id_aborts UiState.new 0 ⟨7, .started⟩ [] rfl
    (fun _ _ _ h => by cases h)

/-! ## C6 -/

/-- C6: on `Finished` the reducer records an exit timestamp, deactivates the
snapshot, and takes success from the backend's own exit-code judgment
(`exit.exit_code.is_some_and(|ec| ec.success)`, so an absent exit code is
failure); on `Failed` it records the timestamp, sets success to `false` and
stores the error's text. -/
theorem update_terminal_semantics (s : UiState) (now : ℚ) (id : Nat)
    (t : UiTask) (exit : CommandExit) (err : FfmpegError)
    (h : s.tasks.getD id none = some t) :
    (∃ s', s.update now ⟨id, .finished exit⟩ = .ok s' ∧ ∃ t',
      s'.tasks.getD id none = some t' ∧
      t'.success = some (match exit.exit_code with
        | some ec => ec.success
        | none => false) ∧
      t'.exited_at = some now ∧ t'.active = false) ∧
    (∃ s', s.update now ⟨id, .failed err⟩ = .ok s' ∧ ∃ t',
      s'.tasks.getD id none = some t' ∧
      t'.success = some false ∧ t'.exited_at = some now ∧ t'.active = false ∧
      t'.error_description = some err.toText) := by
  have hlt : id < s.tasks.length := getD_some_lt h
  have hpad : padTo s.tasks id = s.tasks := padTo_eq_self hlt
  constructor
  · refine ⟨⟨s.tasks.set id (some { t with active := false, exited_at := some now, success := some (match exit.exit_code with | some ec => ec.success | none => false) })⟩, ?_, ?_⟩
    · simp only [UiState.update, hpad, h]
    · exact ⟨_, getD_set_some _ hlt, rfl, rfl, rfl⟩
  · refine ⟨⟨s.tasks.set id (some { t with active := false, exited_at := some now, success := some false, error_description := some err.toText })⟩, ?_, ?_⟩
    · simp only [UiState.update, hpad, h]
    · exact ⟨_, getD_set_some _ hlt, rfl, rfl, rfl, rfl⟩

/-- Witness for `update_terminal_semantics`: an exit whose process code is 0
but which the backend judges a failure yields `success = some false`. -/
theorem update_terminal_semantics_witness :
    ∃ s', (UiState.mk [some (UiTask.new 0 "a" "b" 5)]).update 3
        ⟨0, .finished ⟨some ⟨0, false⟩⟩⟩ = .ok s' ∧ ∃ t',
      s'.tasks.getD 0 none = some t' ∧ t'.success = some false ∧
      t'.exited_at = some 3 ∧ t'.active = false :=
  (update_terminal_semantics (UiState.mk [some (UiTask.new 0 "a" "b" 5)]) 3 0
    (UiTask.new 0 "a" "b" 5) ⟨some ⟨0, false⟩⟩ ⟨"boom"⟩ rfl).1

/-! ## C2 -/

/-- C2: the rendered percent is `min(100, current / max(total, ε) × 100)`,
always lies in `[0, 100]`, and with `total = 0` it is 100% as soon as any
progress was observed and 0% otherwise — no division by zero occurs. -/
theorem percent_formula_in_range (current total : Duration) :
    percentOf current total =
      min (current.asSecs / max total.asSecs EPSILON * 100) 100 ∧
    0 ≤ percentOf current total ∧ percentOf current total ≤ 100 ∧
    (total = 0 → (0 < current → percentOf current total = 100) ∧
      (current = 0 → percentOf current total = 0)) := by
  have heps : (0 : ℚ) < EPSILON := by norm_num [EPSILON]
  have hc : (0 : ℚ) ≤ current.asSecs := by
    unfold Duration.asSecs; positivity
  have hmax : (0 : ℚ) < max total.asSecs EPSILON := lt_max_of_lt_right heps
  refine ⟨rfl, ?_, ?_, ?_⟩
  · apply le_min
    · positivity
    · norm_num
  · exact min_le_right _ _
  · rintro rfl
    have h0 : (0 : Duration).asSecs = 0 := by norm_num [Duration.asSecs]
    constructor
    · intro hpos
      have h1 : (1 : ℚ) / 1000000000 ≤ current.asSecs := by
        unfold Duration.asSecs
        apply div_le_div_of_nonneg_right _ (by norm_num)
        exact_mod_cast hpos
      have h2 : EPSILON ≤ current.asSecs := by
        refine le_trans ?_ h1
        norm_num [EPSILON]
      have h3 : (100 : ℚ) ≤ current.asSecs / max (0 : Duration).asSecs EPSILON * 100 := by
        rw [h0, max_eq_right (le_of_lt heps)]
        have : (1 : ℚ) ≤ current.asSecs / EPSILON := (one_le_div heps).mpr h2
        nlinarith
      unfold percentOf
      rw [h0] at h3 ⊢
      exact min_eq_right h3
    · rintro rfl
      unfold percentOf
      norm_num [Duration.asSecs]

/-- Witness for `percent_formula_in_range` at `total = 0`: any observed
progress gives 100%, none gives 0%. -/
theorem percent_formula_in_range_witness :
    percentOf 5 0 = 100 ∧ percentOf 0 0 = 0 ∧
    0 ≤ percentOf 7 3 ∧ percentOf 7 3 ≤ 100 :=
  ⟨((percent_formula_in_range 5 0).2.2.2 rfl).1 (by norm_num),
   ((percent_formula_in_range 0 0).2.2.2 rfl).2 rfl,
   (percent_formula_in_range 7 3).2.1,
   (percent_formula_in_range 7 3).2.2.1⟩

/-! ## C9 -/

/-- C9: the command builder appends, in order: overwrite flag, input path,
audio handling (strip vs pass-through copy), video handling (strip vs h264
re-encode with fixed quality/preset), container/format flags, the trailing
raw arguments, and the output path last. -/
theorem commandBuilder_order (no_audio no_video : Bool)
    (extra_args : List String) (input output : String) (cmd : Cmd) :
    (commandBuilder no_audio no_video extra_args input output cmd).args =
      cmd.args ++ ["-y"] ++ ["-i", input]
        ++ (if no_audio then ["-an"] else ["-c:a", "copy"])
        ++ (if no_video then ["-vn"]
            else ["-c:v", "libx264", "-crf", "18", "-preset", "ultrafast"])
        ++ ["-movflags", "+frag_keyframe+empty_moov", "-f", "mp4"]
        ++ extra_args ++ [output] := by
  cases no_audio <;> cases no_video <;>
    by_cases h : extra_args = [] <;>
      simp [commandBuilder, Cmd.arg, Cmd.argsMany, h]

/-! ## C7 -/

theorem monitorLoop_eq (id : Nat) (total : Duration) (sendOk : SendResult)
    (ins : List RelayIn) : ∀ k, monitorLoop id total sendOk k ins =
      ((ins.takeWhile RelayIn.isSample).filterMap RelayIn.sampleVal).map
        (fun d => ⟨id, .progress total d⟩) := by
  induction ins with
  | nil => intro k; rfl
  | cons i rest ih =>
    intro k
    cases i with
    | sample d =>
      simp only [monitorLoop, List.takeWhile_cons, RelayIn.isSample,
        if_pos, List.filterMap_cons, RelayIn.sampleVal, List.map_cons,
        ih (k + 1)]
    | closed => rfl
    | cancelled => rfl

/-- C7: the monitor forwards every duration sample received before the
channel closes or cancellation as a `Progress` event for its job paired with
the job's total duration; it stops exactly at the first close/cancel; and
the result of each outbound send is discarded, so send failures never change
its behaviour. -/
theorem spawnMonitor_behaviour (id : Nat) (total : Duration)
    (sendOk sendOk' : SendResult) (ins : List RelayIn) :
    spawnMonitorSends id total sendOk ins =
      ((ins.takeWhile RelayIn.isSample).filterMap RelayIn.sampleVal).map
        (fun d => ⟨id, .progress total d⟩) ∧
    spawnMonitorSends id total sendOk ins =
      spawnMonitorSends id total sendOk' ins :=
  ⟨monitorLoop_eq id total sendOk ins 0,
   (monitorLoop_eq id total sendOk ins 0).trans
     (monitorLoop_eq id total sendOk' ins 0).symm⟩

/-! ## C8 -/

/-- C8 counterexample: in single-`--input` mode a path that fails to
canonicalize aborts the run with the canonicalization error itself — it is
not skipped with a warning, and the abort is not the no-inputs-resolve
refusal. -/
theorem resolveInputs_single_fatal_cex :
    resolveInputs (fun _ => none) (.single "missing") =
      .error (.canonicalizeFailed "missing") ∧
    (Except.error (StartError.canonicalizeFailed "missing") :
        Except StartError (List String)) ≠ .error .noInputs :=
  ⟨rfl, by simp⟩

/-- C8 amended: only in `-` (stdin) mode is a path that fails to
canonicalize skipped with a warning — there the run either starts with the
canonicalized survivors or refuses with the no-inputs error exactly when no
line resolves; in single-`--input` mode a canonicalization failure is fatal
by itself. -/
theorem resolveInputs_skip_semantics (fs : Canonicalizer) :
    (∀ lines, resolveInputs fs (.stdinLines lines) =
        .ok ((lines.filter (fun l => !l.trim.isEmpty)).filterMap fs) ∨
      resolveInputs fs (.stdinLines lines) = .error .noInputs) ∧
    (∀ lines, resolveInputs fs (.stdinLines lines) = .error .noInputs ↔
      (lines.filter (fun l => !l.trim.isEmpty)).filterMap fs = []) ∧
    (∀ p, resolveInputs fs (.single p) = .error (.canonicalizeFailed p) ↔
      fs p = none) := by
  refine ⟨?_, ?_, ?_⟩
  · intro lines
    simp only [resolveInputs]
    split
    · right; rfl
    · left; rfl
  · intro lines
    simp only [resolveInputs]
    split
    · rename_i hemp
      simp only [List.isEmpty_iff] at hemp
      simp [hemp]
    · rename_i hemp
      simp only [List.isEmpty_iff] at hemp
      simp [hemp]
  · intro p
    simp only [resolveInputs]
    cases hc : fs p with
    | none => simp
    | some q => simp

/-- Witness for `resolveInputs_skip_semantics` at a concrete filesystem:
with one resolvable and one unresolvable line, stdin mode starts with the
survivor. -/
theorem resolveInputs_skip_semantics_witness :
    (resolveInputs (fun p => if p = "good" then some "/good" else none)
        (.stdinLines ["bad", "good"]) =
      .ok (((["bad", "good"] : List String).filter
          (fun l => !l.trim.isEmpty)).filterMap
        (fun p => if p = "good" then some "/good" else none)) ∨
      resolveInputs (fun p => if p = "good" then some "/good" else none)
        (.stdinLines ["bad", "good"]) = .error .noInputs) ∧
    (resolveInputs (fun _ => none) (.single "gone") =
        .error (.canonicalizeFailed "gone") ↔
      (fun _ => (none : Option String)) "gone" = none) :=
  ⟨(resolveInputs_skip_semantics
      (fun p => if p = "good" then some "/good" else none)).1 ["bad", "good"],
   (resolveInputs_skip_semantics (fun _ => none)).2.2 "gone"⟩

/-! ## C4 -/

/-- C4 counterexample: with total 100 s, current exactly 1 s (progress equal
to, not exceeding, 1% of total) and 10 s elapsed, the renderer reports an
ETA; so "an ETA is reported only when progress exceeds 1% of total" is false
of the code, whose guard is `progress < total * 0.01`. -/
theorem eta_claim_cex :
    ¬ (∀ (now : ℚ) (t : UiTask), (etaOf now t).isSome = true →
        t.total.asSecs * (1 / 100) < t.current.asSecs) := by
  intro hcl
  have h := hcl 10 etaProbeTask
  have heval : etaOf 10 etaProbeTask = some 990 := by
    norm_num [etaOf, etaProbeTask, Duration.asSecs]
  rw [heval] at h
  have := h rfl
  norm_num [etaProbeTask, Duration.asSecs] at this

/-- C4 amended: a started task's ETA is reported only when progress is at
least 1% of total; when reported it equals
`max(0, elapsed × (total/current − 1))` (the code clamps a negative
extrapolation, possible when current exceeds total, to zero before
display); and it is suppressed whenever the extrapolated remaining time
exceeds one hour. -/
theorem eta_semantics (now : ℚ) (t : UiTask) :
    (∀ r, etaOf now t = some r → ∃ i, t.started_at = some i ∧
      t.total.asSecs * (1 / 100) ≤ t.current.asSecs ∧
      (now - i) * (t.total.asSecs / t.current.asSecs - 1) ≤ 3600 ∧
      r = max ((now - i) * (t.total.asSecs / t.current.asSecs - 1)) 0) ∧
    (∀ i, t.started_at = some i →
      3600 < (now - i) * (t.total.asSecs / t.current.asSecs - 1) →
      etaOf now t = none) ∧
    (t.started_at = none → etaOf now t = none) ∧
    (∀ i, t.started_at = some i →
      t.current.asSecs < t.total.asSecs * (1 / 100) → etaOf now t = none) := by
  refine ⟨?_, ?_, ?_, ?_⟩
  · intro r hr
    unfold etaOf at hr
    cases hi : t.started_at with
    | none => rw [hi] at hr; cases hr
    | some i =>
      rw [hi] at hr
      simp only at hr
      split at hr
      · cases hr
      · rename_i hge
        split at hr
        · cases hr
        · rename_i hle
          refine ⟨i, rfl, by linarith [not_lt.mp hge], not_lt.mp hle, ?_⟩
          exact (Option.some.inj hr).symm
  · intro i hi hgt
    unfold etaOf
    rw [hi]
    simp only
    split
    · rfl
    · rfl
  · intro hi; unfold etaOf; rw [hi]
  · intro i hi hlt
    unfold etaOf
    rw [hi]
    simp only
    rw [if_pos hlt]

/-- Witness for `eta_semantics`: the reported ETA at total 100 s, current
1 s, elapsed 10 s is 990 s, which is `max(0, 10 × (100/1 − 1))`. -/
theorem eta_semantics_witness :
    ∃ i, etaProbeTask.started_at = some i ∧
      etaProbeTask.total.asSecs * (1 / 100) ≤ etaProbeTask.current.asSecs ∧
      ((10 : ℚ) - i) * (etaProbeTask.total.asSecs /
        etaProbeTask.current.asSecs - 1) ≤ 3600 ∧
      (990 : ℚ) = max (((10 : ℚ) - i) * (etaProbeTask.total.asSecs /
        etaProbeTask.current.asSecs - 1)) 0 :=
  (eta_semantics 10 etaProbeTask).1 990
    (by norm_num [etaOf, etaProbeTask, Duration.asSecs])

/-! ## C3 -/

theorem count_exit_eq_succ_add_fail (l : List UiTask)
    (h : ∀ t ∈ l, exitMatchesSuccess t) :
    (l.filter (fun t => t.exited_at.isSome)).length =
      (l.filter (fun t => t.success == some true)).length +
      (l.filter (fun t => t.success == some false)).length := by
  induction l with
  | nil => rfl
  | cons t rest ih =>
    have ht : t.exited_at.isSome = t.success.isSome := h t (by simp)
    have hrest := ih (fun x hx => h x (by simp [hx]))
    simp only [List.filter_cons]
    cases hs : t.success with
    | none =>
      have he : t.exited_at.isSome = false := by rw [ht, hs]; rfl
      simp [hs, he, hrest]
    | some b =>
      have he : t.exited_at.isSome = true := by rw [ht, hs]; rfl
      cases b <;> simp [hs, he, hrest] <;> omega

theorem count_active_add_exit_le (l : List UiTask)
    (h : ∀ t ∈ l, exitMatchesSuccess t ∧ decidedNotActive t) :
    (l.filter (fun t => t.active)).length +
      (l.filter (fun t => t.exited_at.isSome)).length ≤ l.length := by
  induction l with
  | nil => simp
  | cons t rest ih =>
    obtain ⟨ht1, ht2⟩ := h t (by simp)
    have hrest := ih (fun x hx => h x (by simp [hx]))
    simp only [List.filter_cons, List.length_cons]
    cases ha : t.active with
    | true =>
      have hs : t.success = none := by
        cases hs : t.success with
        | none => rfl
        | some b => rw [ht2 (by rw [hs]; rfl)] at ha; cases ha
      have he : t.exited_at.isSome = false := by
        rw [ht1, hs]; rfl
      simp [ha, he]
      omega
    | false =>
      cases he : t.exited_at.isSome with
      | true => simp [ha, he]; omega
      | false => simp [ha, he]; omega

theorem taskList_of_getD (s : UiState) (P : UiTask → Prop)
    (h : ∀ j t, s.tasks.getD j none = some t → P t) :
    ∀ t ∈ s.taskList, P t := by
  intro t ht
  rw [UiState.taskList, List.reduceOption_mem_iff, List.mem_iff_getElem?] at ht
  obtain ⟨n, hn⟩ := ht
  exact h n t (by rw [List.getD_eq_getElem?_getD, hn]; rfl)

theorem hasStarted_weaken {j : Nat} {e : ℚ × UiMessage}
    {rest : List (ℚ × UiMessage)} (h : hasStarted j rest) :
    hasStarted j (e :: rest) := by
  obtain ⟨x, hx, hx2⟩ := h
  exact ⟨x, List.mem_cons_of_mem _ hx, hx2⟩

theorem update_preserves_exitConsistent (s s' : UiState) (now : ℚ)
    (m : UiMessage) (hup : s.update now m = .ok s')
    (h : exitConsistent s) : exitConsistent s' := by
  intro j t ht
  simp only [UiState.update] at hup
  split at hup
  · -- no snapshot for the id
    split at hup
    · -- Created: insert the fresh snapshot
      obtain rfl := (Except.ok.inj hup).symm
      by_cases hj : j = m.task_id
      · subst hj
        rw [getD_padTo_set_self] at ht
        obtain rfl := Option.some.inj ht
        rfl
      · rw [getD_padTo_set_ne _ (Ne.symm hj)] at ht
        exact h j t ht
    · cases hup
  · -- the snapshot exists
    rename_i t0 heq
    have h0 : s.tasks.getD m.task_id none = some t0 := by
      rw [← padTo_getD s.tasks m.task_id]; exact heq
    split at hup
    all_goals
      obtain rfl := (Except.ok.inj hup).symm
    · -- Created: nop
      rw [padTo_getD] at ht
      exact h j t ht
    all_goals
      by_cases hj : j = m.task_id
      case pos =>
        subst hj
        rw [getD_padTo_set_self] at ht
        obtain rfl := Option.some.inj ht
        first
        | rfl
        | exact h _ t0 h0
      case neg =>
        rw [getD_padTo_set_ne _ (Ne.symm hj)] at ht
        exact h j t ht

theorem update_preserves_pendingInv (s s' : UiState) (now : ℚ)
    (m : UiMessage) (rest : List (ℚ × UiMessage))
    (hup : s.update now m = .ok s')
    (hord : m.payload.isTerminal → ¬ hasStarted m.task_id rest)
    (hinv : pendingInv s ((now, m) :: rest)) : pendingInv s' rest := by
  intro j t ht
  simp only [UiState.update] at hup
  split at hup
  · split at hup
    · -- Created: fresh snapshot, success unset
      obtain rfl := (Except.ok.inj hup).symm
      by_cases hj : j = m.task_id
      · subst hj
        rw [getD_padTo_set_self] at ht
        obtain rfl := Option.some.inj ht
        exact ⟨fun hs => (by cases hs), fun hs => (by cases hs)⟩
      · rw [getD_padTo_set_ne _ (Ne.symm hj)] at ht
        obtain ⟨h1, h2⟩ := hinv j t ht
        exact ⟨h1, fun hs => fun hst => h2 hs (hasStarted_weaken hst)⟩
    · cases hup
  · rename_i t0 heq
    have h0 : s.tasks.getD m.task_id none = some t0 := by
      rw [← padTo_getD s.tasks m.task_id]; exact heq
    split at hup
    all_goals
      obtain rfl := (Except.ok.inj hup).symm
    · -- Created: nop
      rw [padTo_getD] at ht
      obtain ⟨h1, h2⟩ := hinv j t ht
      exact ⟨h1, fun hs hst => h2 hs (hasStarted_weaken hst)⟩
    · -- Started
      rename_i hpay
      by_cases hj : j = m.task_id
      · subst hj
        rw [getD_padTo_set_self] at ht
        obtain rfl := Option.some.inj ht
        obtain ⟨h1, h2⟩ := hinv _ t0 h0
        have hs0 : t0.success = none := by
          cases hsm : t0.success with
          | none => rfl
          | some b =>
            exact absurd ⟨(now, m), List.mem_cons_self _ _, rfl, hpay⟩
              (h2 (by rw [hsm]; rfl))
        exact ⟨fun hs => absurd hs (by simp [hs0]),
          fun hs => absurd hs (by simp [hs0])⟩
      · rw [getD_padTo_set_ne _ (Ne.symm hj)] at ht
        obtain ⟨h1, h2⟩ := hinv j t ht
        exact ⟨h1, fun hs hst => h2 hs (hasStarted_weaken hst)⟩
    · -- Finished
      rename_i hpay
      by_cases hj : j = m.task_id
      · subst hj
        rw [getD_padTo_set_self] at ht
        obtain rfl := Option.some.inj ht
        refine ⟨fun _ => rfl, fun _ => ?_⟩
        exact hord (by rw [hpay]; trivial)
      · rw [getD_padTo_set_ne _ (Ne.symm hj)] at ht
        obtain ⟨h1, h2⟩ := hinv j t ht
        exact ⟨h1, fun hs hst => h2 hs (hasStarted_weaken hst)⟩
    · -- Failed
      rename_i hpay
      by_cases hj : j = m.task_id
      · subst hj
        rw [getD_padTo_set_self] at ht
        obtain rfl := Option.some.inj ht
        refine ⟨fun _ => rfl, fun _ => ?_⟩
        exact hord (by rw [hpay]; trivial)
      · rw [getD_padTo_set_ne _ (Ne.symm hj)] at ht
        obtain ⟨h1, h2⟩ := hinv j t ht
        exact ⟨h1, fun hs hst => h2 hs (hasStarted_weaken hst)⟩
    · -- Progress
      by_cases hj : j = m.task_id
      · subst hj
        rw [getD_padTo_set_self] at ht
        obtain rfl := Option.some.inj ht
        obtain ⟨h1, h2⟩ := hinv _ t0 h0
        exact ⟨fun hs => h1 hs, fun hs hst => h2 hs (hasStarted_weaken hst)⟩
      · rw [getD_padTo_set_ne _ (Ne.symm hj)] at ht
        obtain ⟨h1, h2⟩ := hinv j t ht
        exact ⟨h1, fun hs hst => h2 hs (hasStarted_weaken hst)⟩

theorem run_preserves_exitConsistent :
    ∀ (evs : List (ℚ × UiMessage)) (s s' : UiState), s.run evs = .ok s' →
      exitConsistent s → exitConsistent s' := by
  intro evs
  induction evs with
  | nil =>
    intro s s' h hs
    obtain rfl := Except.ok.inj h
    exact hs
  | cons e rest ih =>
    intro s s' h hs
    obtain ⟨now, m⟩ := e
    simp only [UiState.run] at h
    split at h
    · rename_i s1 hup
      exact ih s1 s' h (update_preserves_exitConsistent s s1 now m hup hs)
    · cases h

theorem run_preserves_pendingInv :
    ∀ (evs : List (ℚ × UiMessage)) (s s' : UiState), protocolOrdered evs →
      s.run evs = .ok s' → pendingInv s evs → pendingInv s' [] := by
  intro evs
  induction evs with
  | nil =>
    intro s s' _ h hs
    obtain rfl := Except.ok.inj h
    exact hs
  | cons e rest ih =>
    intro s s' hord h hs
    obtain ⟨now, m⟩ := e
    simp only [UiState.run] at h
    split at h
    · rename_i s1 hup
      exact ih s1 s' hord.2 h
        (update_preserves_pendingInv s s1 now m rest hup hord.1 hs)
    · cases h

/-- C3 counterexample: the sequence `Created, Finished, Started` for one
job (a `Started` delivered after the job's terminal event) drives the
reducer to a snapshot that is simultaneously active and completed, so
`active + completed ≤ total` fails; the claim quantifies over every
sequence of reducer updates, so it is false as stated. -/
theorem aggregate_counts_cex :
    ∃ s', UiState.new.run
        [(0, ⟨0, .created "a" "b" 10⟩),
         (1, ⟨0, .finished ⟨some ⟨0, true⟩⟩⟩),
         (2, ⟨0, .started⟩)] = .ok s' ∧
      ¬ (s'.active_tasks + s'.completed_tasks ≤ s'.total_tasks) := by
  refine ⟨_, rfl, ?_⟩
  decide

/-- C3 (amended): for every event sequence the rendered counts satisfy
`completed = succeeded + failed`; and for every sequence in which no job
receives a `Started` event after its terminal event (which the senders
guarantee), `active + completed ≤ total` also holds. -/
theorem aggregate_counts (evs : List (ℚ × UiMessage)) (s' : UiState)
    (h : UiState.new.run evs = .ok s') :
    s'.completed_tasks = s'.successful_tasks + s'.failed_tasks ∧
    (protocolOrdered evs →
      s'.active_tasks + s'.completed_tasks ≤ s'.total_tasks) := by
  have hinit : exitConsistent UiState.new := by
    intro j t ht
    rw [UiState.new] at ht
    cases j <;> cases ht
  have hA : exitConsistent s' := run_preserves_exitConsistent evs _ _ h hinit
  constructor
  · exact count_exit_eq_succ_add_fail s'.taskList
      (taskList_of_getD s' exitMatchesSuccess hA)
  · intro hord
    have hinitB : pendingInv UiState.new evs := by
      intro j t ht
      rw [UiState.new] at ht
      cases j <;> cases ht
    have hB : pendingInv s' [] :=
      run_preserves_pendingInv evs _ _ hord h hinitB
    refine count_active_add_exit_le s'.taskList ?_
    intro t ht
    refine ⟨taskList_of_getD s' exitMatchesSuccess hA t ht, ?_⟩
    exact taskList_of_getD s' decidedNotActive
      (fun j u huj => (hB j u huj).1) t ht

/-- Witness for `aggregate_counts` on the protocol-ordered sequence
`Created, Started, Finished` for one job. -/
theorem aggregate_counts_witness :
    ∃ s', UiState.new.run
        [(0, ⟨0, .created "a" "b" 10⟩),
         (1, ⟨0, .started⟩),
         (2, ⟨0, .finished ⟨some ⟨0, true⟩⟩⟩)] = .ok s' ∧
      s'.completed_tasks = s'.successful_tasks + s'.failed_tasks ∧
      s'.active_tasks + s'.completed_tasks ≤ s'.total_tasks := by
  refine ⟨_, rfl, ?_⟩
  have h := aggregate_counts
    [(0, ⟨0, .created "a" "b" 10⟩),
     (1, ⟨0, .started⟩),
     (2, ⟨0, .finished ⟨some ⟨0, true⟩⟩⟩)] _ rfl
  refine ⟨h.1, h.2 ?_⟩
  refine ⟨fun hterm => ?_, fun hterm => ?_, fun hterm => ?_, trivial⟩
  · cases hterm
  · cases hterm
  · rintro ⟨e, he, -, -⟩
    cases he

/-! ## C5 -/

theorem append_single_cases {α} (tr : List α) (e x : α) (n : Nat)
    (h : (tr ++ [e])[n]? = some x) :
    (n < tr.length ∧ tr[n]? = some x) ∨ (n = tr.length ∧ x = e) := by
  rcases Nat.lt_trichotomy n tr.length with hlt | heq | hgt
  · exact Or.inl ⟨hlt, by rwa [List.getElem?_append_left hlt] at h⟩
  · subst heq
    rw [List.getElem?_concat_length] at h
    exact Or.inr ⟨rfl, (Option.some.inj h).symm⟩
  · exfalso
    have := (List.getElem?_eq_some.mp h).1
    simp only [List.length_append, List.length_singleton] at this
    omega

theorem getElem?_lt_of_some {α} {tr : List α} {n : Nat} {x : α}
    (h : tr[n]? = some x) : n < tr.length :=
  (List.getElem?_eq_some.mp h).1

theorem unique_extend {tr : List GateEvent} {e : GateEvent}
    (hu : ∀ (j : Bool) (n m : Nat), tr[n]? = some (GateEvent.started j) →
      tr[m]? = some (GateEvent.started j) → n = m)
    (hnew : ∀ j : Bool, e = GateEvent.started j → GateEvent.started j ∉ tr) :
    ∀ (j : Bool) (n m : Nat), (tr ++ [e])[n]? = some (GateEvent.started j) →
      (tr ++ [e])[m]? = some (GateEvent.started j) → n = m := by
  intro j n m hn hm
  rcases append_single_cases tr e _ n hn with ⟨hlt, hold⟩ | ⟨rfl, rfl⟩
  · rcases append_single_cases tr e _ m hm with ⟨hlt2, hold2⟩ | ⟨rfl, rfl⟩
    · exact hu j n m hold hold2
    · exact absurd (List.mem_iff_getElem?.mpr ⟨n, hold⟩) (hnew j rfl)
  · rcases append_single_cases tr _ _ m hm with ⟨hlt2, hold2⟩ | ⟨rfl, _⟩
    · exact absurd (List.mem_iff_getElem?.mpr ⟨m, hold2⟩) (hnew j rfl)
    · rfl

theorem sbt_extend {tr : List GateEvent} {e : GateEvent}
    (hsbt : ∀ (j : Bool) (n m : Nat), tr[n]? = some (GateEvent.started j) →
      tr[m]? = some (GateEvent.terminal j) → n < m)
    (hterm : ∀ j : Bool, e = GateEvent.started j → GateEvent.terminal j ∉ tr) :
    ∀ (j : Bool) (n m : Nat), (tr ++ [e])[n]? = some (GateEvent.started j) →
      (tr ++ [e])[m]? = some (GateEvent.terminal j) → n < m := by
  intro j n m hn hm
  rcases append_single_cases tr e _ n hn with ⟨hlt, hold⟩ | ⟨rfl, rfl⟩
  · rcases append_single_cases tr e _ m hm with ⟨hlt2, hold2⟩ | ⟨rfl, _⟩
    · exact hsbt j n m hold hold2
    · exact hlt
  · rcases append_single_cases tr _ _ m hm with ⟨hlt2, hold2⟩ | ⟨_, habs⟩
    · exact absurd (List.mem_iff_getElem?.mpr ⟨m, hold2⟩) (hterm j rfl)
    · cases habs

theorem mutex_extend {tr : List GateEvent} {e : GateEvent}
    (hm : ∀ (i j : Bool) (n m : Nat), i ≠ j → n < m →
      tr[n]? = some (GateEvent.started i) → tr[m]? = some (GateEvent.started j) →
      ∃ k, n < k ∧ k < m ∧ tr[k]? = some (GateEvent.terminal i))
    (hnew : ∀ j : Bool, e = GateEvent.started j → ∀ i, i ≠ j →
      ∀ (n : Nat), tr[n]? = some (GateEvent.started i) →
      ∃ (k : Nat), n < k ∧ tr[k]? = some (GateEvent.terminal i)) :
    ∀ (i j : Bool) (n m : Nat), i ≠ j → n < m →
      (tr ++ [e])[n]? = some (GateEvent.started i) →
      (tr ++ [e])[m]? = some (GateEvent.started j) →
      ∃ k, n < k ∧ k < m ∧ (tr ++ [e])[k]? = some (GateEvent.terminal i) := by
  intro i j n m hij hnm hn hmm
  rcases append_single_cases tr e _ n hn with ⟨hlt, hold⟩ | ⟨rfl, rfl⟩
  · rcases append_single_cases tr e _ m hmm with ⟨hlt2, hold2⟩ | ⟨rfl, rfl⟩
    · obtain ⟨k, hk1, hk2, hk3⟩ := hm i j n m hij hnm hold hold2
      exact ⟨k, hk1, hk2, by
        rw [List.getElem?_append_left (lt_trans hk2 hlt2)]; exact hk3⟩
    · obtain ⟨k, hk1, hk3⟩ := hnew j rfl i hij n hold
      have hklt : k < tr.length := getElem?_lt_of_some hk3
      exact ⟨k, hk1, hklt, by
        rw [List.getElem?_append_left hklt]; exact hk3⟩
  · exfalso
    have := getElem?_lt_of_some hmm
    simp only [List.length_append, List.length_singleton] at this
    omega

theorem holding_zero_of_ge3 {p : Nat} (h3 : 3 ≤ p) (h0 : holding p = 0) :
    4 ≤ p := by
  unfold holding at h0; split at h0 <;> omega

theorem bool_eq_not_of_ne {i j : Bool} (h : i ≠ j) : i = !j := by
  cases i <;> cases j <;> simp_all

theorem perm_goal_of_pos (s' : GateState) (jj : Bool)
    (h : s'.permits + holding (s'.pos jj) + holding (s'.pos !jj) = 1) :
    s'.permits + holding s'.p0 + holding s'.p1 = 1 := by
  cases jj
  · exact h
  · simp only [GateState.pos, Bool.not_true] at h
    omega

theorem perm_pos_of_goal (s' : GateState) (jj : Bool)
    (h : s'.permits + holding s'.p0 + holding s'.p1 = 1) :
    s'.permits + holding (s'.pos jj) + holding (s'.pos !jj) = 1 := by
  cases jj
  · exact h
  · simp only [GateState.pos, Bool.not_true]
    omega

theorem bool_not_ne (j : Bool) : (!j) ≠ j := by cases j <;> simp

theorem stepJob_at0 (s : GateState) (j : Bool) (hpos : s.pos j = 0) :
    (stepJob s j).trace = s.trace ++ [GateEvent.created j] ∧
    (stepJob s j).permits = s.permits ∧
    (stepJob s j).pos j = 1 ∧
    ∀ i, i ≠ j → (stepJob s j).pos i = s.pos i := by
  cases j <;>
  · simp only [GateState.pos] at hpos
    simp only [stepJob, GateState.pos, GateState.bump, hpos]
    refine ⟨trivial, trivial, trivial, ?_⟩
    intro i hij
    cases i
    · first | rfl | exact absurd rfl hij
    · first | rfl | exact absurd rfl hij

theorem stepJob_at1_acquire (s : GateState) (j : Bool) (hpos : s.pos j = 1)
    (hp : 0 < s.permits) :
    (stepJob s j).trace = s.trace ∧
    (stepJob s j).permits = s.permits - 1 ∧
    (stepJob s j).pos j = 2 ∧
    ∀ i, i ≠ j → (stepJob s j).pos i = s.pos i := by
  cases j <;>
  · simp only [GateState.pos] at hpos
    simp only [stepJob, GateState.pos, GateState.bump, hpos, if_pos hp]
    refine ⟨trivial, trivial, trivial, ?_⟩
    intro i hij
    cases i
    · first | rfl | exact absurd rfl hij
    · first | rfl | exact absurd rfl hij

theorem stepJob_at1_blocked (s : GateState) (j : Bool) (hpos : s.pos j = 1)
    (hp : ¬ 0 < s.permits) : stepJob s j = s := by
  cases j <;>
  · simp only [GateState.pos] at hpos
    simp only [stepJob, GateState.pos, GateState.bump, hpos, if_neg hp]

theorem stepJob_at2 (s : GateState) (j : Bool) (hpos : s.pos j = 2) :
    (stepJob s j).trace = s.trace ++ [GateEvent.started j] ∧
    (stepJob s j).permits = s.permits ∧
    (stepJob s j).pos j = 3 ∧
    ∀ i, i ≠ j → (stepJob s j).pos i = s.pos i := by
  cases j <;>
  · simp only [GateState.pos] at hpos
    simp only [stepJob, GateState.pos, GateState.bump, hpos]
    refine ⟨trivial, trivial, trivial, ?_⟩
    intro i hij
    cases i
    · first | rfl | exact absurd rfl hij
    · first | rfl | exact absurd rfl hij

theorem stepJob_at3 (s : GateState) (j : Bool) (hpos : s.pos j = 3) :
    (stepJob s j).trace = s.trace ++ [GateEvent.terminal j] ∧
    (stepJob s j).permits = s.permits ∧
    (stepJob s j).pos j = 4 ∧
    ∀ i, i ≠ j → (stepJob s j).pos i = s.pos i := by
  cases j <;>
  · simp only [GateState.pos] at hpos
    simp only [stepJob, GateState.pos, GateState.bump, hpos]
    refine ⟨trivial, trivial, trivial, ?_⟩
    intro i hij
    cases i
    · first | rfl | exact absurd rfl hij
    · first | rfl | exact absurd rfl hij

theorem stepJob_at4 (s : GateState) (j : Bool) (hpos : s.pos j = 4) :
    (stepJob s j).trace = s.trace ∧
    (stepJob s j).permits = s.permits + 1 ∧
    (stepJob s j).pos j = 5 ∧
    ∀ i, i ≠ j → (stepJob s j).pos i = s.pos i := by
  cases j <;>
  · simp only [GateState.pos] at hpos
    simp only [stepJob, GateState.pos, GateState.bump, hpos]
    refine ⟨trivial, trivial, trivial, ?_⟩
    intro i hij
    cases i
    · first | rfl | exact absurd rfl hij
    · first | rfl | exact absurd rfl hij

theorem stepJob_done (s : GateState) (j : Bool) (pr : Nat)
    (hpos : s.pos j = pr + 5) : stepJob s j = s := by
  cases j <;>
  · simp only [GateState.pos] at hpos
    simp only [stepJob, GateState.pos, GateState.bump, hpos]

theorem ginv_step (s : GateState) (j : Bool) (h : GInv s) :
    GInv (stepJob s j) := by
  obtain ⟨hperm, hsm, htm, hsu, hsbt, hmx⟩ := h
  have hperm' : s.permits + holding (s.pos j) + holding (s.pos !j) = 1 :=
    perm_pos_of_goal s j hperm
  have hnotne : (!j) ≠ j := bool_not_ne j
  rcases hpos : s.pos j with _ | _ | _ | _ | _ | pr
  · -- pc 0: send Created
    obtain ⟨htr, hpm, hpj, hpo⟩ := stepJob_at0 s j hpos
    refine ⟨?_, ?_, ?_, ?_, ?_, ?_⟩
    · refine perm_goal_of_pos _ j ?_
      rw [hpm, hpj, hpo _ hnotne]
      rw [show holding 1 = 0 from rfl]
      rw [hpos, show holding 0 = 0 from rfl] at hperm'
      omega
    · intro i
      rw [htr]
      rcases eq_or_ne i j with rfl | hij
      · rw [hpj]
        constructor
        · intro hmem
          rcases List.mem_append.mp hmem with hmem | hmem
          · have h3 := (hsm i).mp hmem
            rw [hpos] at h3
            exact absurd h3 (by omega)
          · rw [List.mem_singleton] at hmem
            exact absurd hmem (by simp)
        · intro h3
          exact absurd h3 (by omega)
      · rw [hpo _ hij, ← hsm i]
        constructor
        · intro hmem
          rcases List.mem_append.mp hmem with hmem | hmem
          · exact hmem
          · rw [List.mem_singleton] at hmem
            exact absurd hmem (by simp)
        · exact fun hmem => List.mem_append.mpr (Or.inl hmem)
    · intro i
      rw [htr]
      rcases eq_or_ne i j with rfl | hij
      · rw [hpj]
        constructor
        · intro hmem
          rcases List.mem_append.mp hmem with hmem | hmem
          · have h4 := (htm i).mp hmem
            rw [hpos] at h4
            exact absurd h4 (by omega)
          · rw [List.mem_singleton] at hmem
            exact absurd hmem (by simp)
        · intro h4
          exact absurd h4 (by omega)
      · rw [hpo _ hij, ← htm i]
        constructor
        · intro hmem
          rcases List.mem_append.mp hmem with hmem | hmem
          · exact hmem
          · rw [List.mem_singleton] at hmem
            exact absurd hmem (by simp)
        · exact fun hmem => List.mem_append.mpr (Or.inl hmem)
    · rw [htr]
      exact unique_extend hsu (fun jj habs => absurd habs (by simp))
    · rw [htr]
      exact sbt_extend hsbt (fun jj habs => absurd habs (by simp))
    · rw [htr]
      exact mutex_extend hmx (fun jj habs => absurd habs (by simp))
  · -- pc 1: acquire the semaphore (or stay blocked)
    by_cases hp : 0 < s.permits
    · obtain ⟨htr, hpm, hpj, hpo⟩ := stepJob_at1_acquire s j hpos hp
      refine ⟨?_, ?_, ?_, ?_, ?_, ?_⟩
      · refine perm_goal_of_pos _ j ?_
        rw [hpm, hpj, hpo _ hnotne]
        rw [show holding 2 = 1 from rfl]
        rw [hpos, show holding 1 = 0 from rfl] at hperm'
        omega
      · intro i
        rw [htr]
        rcases eq_or_ne i j with rfl | hij
        · rw [hpj, hsm i, hpos]
          constructor <;> (intro h3; exact absurd h3 (by omega))
        · rw [hpo _ hij]
          exact hsm i
      · intro i
        rw [htr]
        rcases eq_or_ne i j with rfl | hij
        · rw [hpj, htm i, hpos]
          constructor <;> (intro h4; exact absurd h4 (by omega))
        · rw [hpo _ hij]
          exact htm i
      · rw [htr]
        exact hsu
      · rw [htr]
        exact hsbt
      · rw [htr]
        exact hmx
    · rw [stepJob_at1_blocked s j hpos hp]
      exact ⟨hperm, hsm, htm, hsu, hsbt, hmx⟩
  · -- pc 2: send Started
    obtain ⟨htr, hpm, hpj, hpo⟩ := stepJob_at2 s j hpos
    refine ⟨?_, ?_, ?_, ?_, ?_, ?_⟩
    · refine perm_goal_of_pos _ j ?_
      rw [hpm, hpj, hpo _ hnotne]
      rw [show holding 3 = 1 from rfl]
      rw [hpos, show holding 2 = 1 from rfl] at hperm'
      omega
    · intro i
      rw [htr]
      rcases eq_or_ne i j with rfl | hij
      · rw [hpj]
        constructor
        · intro _
          omega
        · intro _
          exact List.mem_append.mpr (Or.inr (List.mem_singleton.mpr rfl))
      · rw [hpo _ hij, ← hsm i]
        constructor
        · intro hmem
          rcases List.mem_append.mp hmem with hmem | hmem
          · exact hmem
          · rw [List.mem_singleton] at hmem
            simp only [GateEvent.started.injEq] at hmem
            exact absurd hmem hij
        · exact fun hmem => List.mem_append.mpr (Or.inl hmem)
    · intro i
      rw [htr]
      rcases eq_or_ne i j with rfl | hij
      · rw [hpj]
        constructor
        · intro hmem
          rcases List.mem_append.mp hmem with hmem | hmem
          · have h4 := (htm i).mp hmem
            rw [hpos] at h4
            exact absurd h4 (by omega)
          · rw [List.mem_singleton] at hmem
            exact absurd hmem (by simp)
        · intro h4
          exact absurd h4 (by omega)
      · rw [hpo _ hij, ← htm i]
        constructor
        · intro hmem
          rcases List.mem_append.mp hmem with hmem | hmem
          · exact hmem
          · rw [List.mem_singleton] at hmem
            exact absurd hmem (by simp)
        · exact fun hmem => List.mem_append.mpr (Or.inl hmem)
    · rw [htr]
      refine unique_extend hsu ?_
      intro jj habs
      obtain rfl : j = jj := by simpa using habs
      intro hmem
      have h3 := (hsm j).mp hmem
      rw [hpos] at h3
      exact absurd h3 (by omega)
    · rw [htr]
      refine sbt_extend hsbt ?_
      intro jj habs
      obtain rfl : j = jj := by simpa using habs
      intro hmem
      have h4 := (htm j).mp hmem
      rw [hpos] at h4
      exact absurd h4 (by omega)
    · rw [htr]
      refine mutex_extend hmx ?_
      intro jj habs i hij n hn
      obtain rfl : j = jj := by simpa using habs
      have hmem : GateEvent.started i ∈ s.trace :=
        List.mem_iff_getElem?.mpr ⟨n, hn⟩
      have h3 := (hsm i).mp hmem
      have hieq : i = !j := bool_eq_not_of_ne hij
      have hzero : holding (s.pos i) = 0 := by
        rw [hpos, show holding 2 = 1 from rfl] at hperm'
        rw [hieq]
        omega
      have h4 : 4 ≤ s.pos i := holding_zero_of_ge3 h3 hzero
      have hterm : GateEvent.terminal i ∈ s.trace := (htm i).mpr h4
      obtain ⟨k, hk⟩ := List.mem_iff_getElem?.mp hterm
      exact ⟨k, hsbt i n k hn hk, hk⟩
  · -- pc 3: send the terminal event
    obtain ⟨htr, hpm, hpj, hpo⟩ := stepJob_at3 s j hpos
    refine ⟨?_, ?_, ?_, ?_, ?_, ?_⟩
    · refine perm_goal_of_pos _ j ?_
      rw [hpm, hpj, hpo _ hnotne]
      rw [show holding 4 = 1 from rfl]
      rw [hpos, show holding 3 = 1 from rfl] at hperm'
      omega
    · intro i
      rw [htr]
      rcases eq_or_ne i j with rfl | hij
      · rw [hpj]
        constructor
        · intro _
          omega
        · intro _
          refine List.mem_append.mpr (Or.inl ?_)
          exact (hsm i).mpr (by rw [hpos])
      · rw [hpo _ hij, ← hsm i]
        constructor
        · intro hmem
          rcases List.mem_append.mp hmem with hmem | hmem
          · exact hmem
          · rw [List.mem_singleton] at hmem
            exact absurd hmem (by simp)
        · exact fun hmem => List.mem_append.mpr (Or.inl hmem)
    · intro i
      rw [htr]
      rcases eq_or_ne i j with rfl | hij
      · rw [hpj]
        constructor
        · intro _
          omega
        · intro _
          exact List.mem_append.mpr (Or.inr (List.mem_singleton.mpr rfl))
      · rw [hpo _ hij, ← htm i]
        constructor
        · intro hmem
          rcases List.mem_append.mp hmem with hmem | hmem
          · exact hmem
          · rw [List.mem_singleton] at hmem
            simp only [GateEvent.terminal.injEq] at hmem
            exact absurd hmem hij
        · exact fun hmem => List.mem_append.mpr (Or.inl hmem)
    · rw [htr]
      exact unique_extend hsu (fun jj habs => absurd habs (by simp))
    · rw [htr]
      exact sbt_extend hsbt (fun jj habs => absurd habs (by simp))
    · rw [htr]
      exact mutex_extend hmx (fun jj habs => absurd habs (by simp))
  · -- pc 4: release the permit
    obtain ⟨htr, hpm, hpj, hpo⟩ := stepJob_at4 s j hpos
    refine ⟨?_, ?_, ?_, ?_, ?_, ?_⟩
    · refine perm_goal_of_pos _ j ?_
      rw [hpm, hpj, hpo _ hnotne]
      rw [show holding 5 = 0 from rfl]
      rw [hpos, show holding 4 = 1 from rfl] at hperm'
      omega
    · intro i
      rw [htr]
      rcases eq_or_ne i j with rfl | hij
      · rw [hpj, hsm i, hpos]
        constructor <;> (intro _; omega)
      · rw [hpo _ hij]
        exact hsm i
    · intro i
      rw [htr]
      rcases eq_or_ne i j with rfl | hij
      · rw [hpj, htm i, hpos]
        constructor <;> (intro _; omega)
      · rw [hpo _ hij]
        exact htm i
    · rw [htr]
      exact hsu
    · rw [htr]
      exact hsbt
    · rw [htr]
      exact hmx
  · -- pc ≥ 5: the runner is done, no step
    rw [stepJob_done s j pr (by omega)]
    exact ⟨hperm, hsm, htm, hsu, hsbt, hmx⟩

theorem ginv_init : GInv (gateInit 1) := by
  refine ⟨rfl, ?_, ?_, ?_, ?_, ?_⟩
  · intro j
    simp [gateInit, GateState.pos]
    cases j <;> simp
  · intro j
    simp [gateInit, GateState.pos]
    cases j <;> simp
  · intro j n m hn
    simp [gateInit] at hn
  · intro j n m hn
    simp [gateInit] at hn
  · intro i j n m _ _ hn
    simp [gateInit] at hn

theorem ginv_exec (sched : List Bool) : GInv (execSched 1 sched) := by
  have : ∀ (l : List Bool) (s : GateState), GInv s → GInv (l.foldl stepJob s) := by
    intro l
    induction l with
    | nil => exact fun s hs => hs
    | cons b rest ih =>
      intro s hs
      exact ih (stepJob s b) (ginv_step s b hs)
  exact this sched (gateInit 1) ginv_init

/-- C5 counterexample: the schedule that lets the second runner reach the
gate first (three steps of job `true`: send Created, acquire, send Started)
yields the observable trace `[Created₂, Started₂]` with no terminal event of
the first job before `Started₂`; admission order at the semaphore is not
tied to job ids, so the claim as stated is false. -/
theorem gate_claim_cex :
    ¬ (∀ (sched : List Bool) (m : Nat),
        (execSched 1 sched).trace[m]? = some (GateEvent.started true) →
        ∃ n, n < m ∧
          (execSched 1 sched).trace[n]? = some (GateEvent.terminal false)) := by
  intro hcl
  obtain ⟨n, hn1, hn2⟩ := hcl [true, true, true] 1 (by decide)
  have hn0 : n = 0 := by omega
  subst hn0
  exact absurd hn2 (by decide)

/-- C5 (amended): with gate capacity 1, the runners' `Started` events are
serialized by the permit — whenever two different jobs' `Started` events are
both observed, the earlier-started job's terminal event is observed strictly
between them (so whichever job acquires the gate first, the other's
`Started` cannot precede its terminal); each runner emits `Created` before
touching the gate, so a queued job's `Created` may be observed immediately
(schedule `[true]` observes `[Created₂]` with the gate untouched). -/
theorem gate_serializes (sched : List Bool) (i j : Bool) (n m : Nat)
    (hij : i ≠ j) (hnm : n < m)
    (hn : (execSched 1 sched).trace[n]? = some (GateEvent.started i))
    (hm : (execSched 1 sched).trace[m]? = some (GateEvent.started j)) :
    (∃ k, n < k ∧ k < m ∧
      (execSched 1 sched).trace[k]? = some (GateEvent.terminal i)) ∧
    (execSched 1 [true]).trace = [GateEvent.created true] :=
  ⟨(ginv_exec sched).mutex i j n m hij hnm hn hm, by decide⟩

/-- Witness for `gate_serializes`: job `false` runs to completion, then job
`true` starts; between `Started₁` (index 1) and `Started₂` (index 4) the
trace holds `Terminal₁` (index 2). -/
theorem gate_serializes_witness :
    (∃ k, 1 < k ∧ k < 4 ∧
      (execSched 1 [false, false, false, false, false, true, true, true]
        ).trace[k]? = some (GateEvent.terminal false)) ∧
    (execSched 1 [true]).trace = [GateEvent.created true] :=
  gate_serializes [false, false, false, false, false, true, true, true]
    false true 1 4 (by decide) (by decide) (by decide) (by decide)

end Ffrenc
